import Mathlib

/-!
Shallow embedding of `src/variant.cpp` (a rule-configuration subsystem for a
multi-variant board-game engine): the derivation engine `Variant::conclude`,
the registry `VariantMap` (`add`, the per-section part of `parse_istream`,
and the end-of-pass cleanup), and the INI-style line/attribute collection.

Modelling conventions:
* C++ `std::string` is `List Char`; machine integers are `Nat`/`Int` with
  explicit truncation where the width matters (`PieceSet` is `uint64_t`, so
  bit loops run on the low 64 bits, exactly as `std::bitset<64>` does).
* `Bitboard` masks are `Nat` bitmasks; a shift by a negative amount is
  undefined behaviour in C++ and is modelled as an empty mask.
* Constants from the headers that are not part of this repository excerpt
  (`types.h` piece/board constants) are fixed here with the LARGEBOARDS
  geometry (12 files x 10 ranks); the claims do not depend on the exact
  piece-family masks, only on the board extent and on `KING`,
  `COMMONER`, `NO_PIECE_TYPE` being distinct piece types.
* The registry (`VariantMap : std::map<std::string, const Variant*>`) is an
  association list with the ordered-map operations `find`, `insert` (which
  does NOT overwrite an existing key), `erase` and `operator[]`; the sort
  order of keys is abstracted, which no claim observes.
-/

/-- Board geometry constants (LARGEBOARDS build): `FILE_NB = 12`. -/
def FILE_NB : Nat := 12
/-- Largest valid file index, `FILE_MAX`. -/
def FILE_MAX : Nat := 11
/-- Largest valid rank index, `RANK_MAX`. -/
def RANK_MAX : Nat := 9
/-- Number of squares of the full board, `SQUARE_NB` (size of the
`kingSquareIndex` table). -/
def SQUARE_NB : Nat := 120

/-- Piece-type constants from the engine headers. -/
def NO_PIECE_TYPE : Nat := 0
def PAWN : Nat := 1
def KNIGHT : Nat := 2
def BISHOP : Nat := 3
def ROOK : Nat := 4
def QUEEN : Nat := 5
def FERS : Nat := 6
def SILVER : Nat := 7
def COMMONER : Nat := 8
def GOLD : Nat := 9
def KING : Nat := 63
/-- Number of piece types; `PieceSet` is a 64-bit mask over them. -/
def PIECE_TYPE_NB : Nat := 64

/-- All-ones mask of the 64-bit `PieceSet` type (used for `~` on pieceset
values, which in C++ is complement within `uint64_t`). -/
def mask64 : Nat := 2 ^ 64 - 1

/-- Lean model of `piece_set(pt)`: the single-bit mask of a piece type. -/
def pieceSet (pt : Nat) : Nat := 1 <<< pt

/-- The two colors. -/
inductive Color where
  | white : Color
  | black : Color
deriving DecidableEq, Repr

/-- The opposite color, `~c`. -/
def Color.flip : Color → Color
  | .white => .black
  | .black => .white

/-- Piece index `make_piece(c, pt)`: color-major encoding into the
`pieceToChar` string and the per-piece index tables. -/
def make_piece (c : Color) (pt : Nat) : Nat :=
  (match c with | .white => 0 | .black => PIECE_TYPE_NB) + pt

/-- Value constants (`types.h`). -/
def VALUE_MATE : Int := 32000
def VALUE_DRAW : Int := 0
def VALUE_NONE : Int := 32002

/-- Direction constants on the 12-file board (`types.h`). -/
def EAST : Int := 1
def NORTH : Int := 12
def NORTH_EAST : Int := 13
def SOUTH_EAST : Int := -11

/-- Piece-family masks used by the fast-attack eligibility tests. Their
exact contents live in the missing headers; the claims only use them as
fixed sets. -/
def CHESS_PIECES : Nat :=
  pieceSet PAWN ||| pieceSet KNIGHT ||| pieceSet BISHOP ||| pieceSet ROOK |||
  pieceSet QUEEN ||| pieceSet KING
def COMMON_FAIRY_PIECES : Nat :=
  pieceSet FERS ||| pieceSet SILVER ||| pieceSet COMMONER ||| pieceSet GOLD
def SHOGI_PIECES : Nat :=
  pieceSet PAWN ||| pieceSet KNIGHT ||| pieceSet SILVER ||| pieceSet GOLD |||
  pieceSet ROOK ||| pieceSet BISHOP ||| pieceSet KING
def COMMON_STEP_PIECES : Nat :=
  pieceSet FERS ||| pieceSet COMMONER

/-- ASCII `isspace` of the default C locale. -/
def isspaceChar (c : Char) : Bool :=
  c = ' ' || c = '\t' || c = '\n' || c = '\x0b' || c = '\x0c' || c = '\r'

/-- Index of the lowest set bit (`lsb`), by fuel over the 64-bit width;
`lsb(0)` is undefined behaviour in C++ and never reached by the code. -/
def lsbAux : Nat → Nat → Nat
  | 0, _ => 0
  | fuel + 1, n => if n % 2 = 1 then 0 else lsbAux fuel (n / 2) + 1

def lsb (n : Nat) : Nat := lsbAux 64 n

/-- Number of set bits among bits `0..63`; on a `uint64_t` value this is
exactly `std::bitset<64>(n).count()`. -/
def popAux : Nat → Nat → Nat
  | 0, _ => 0
  | fuel + 1, n => n % 2 + popAux fuel (n / 2)

def popcnt64 (n : Nat) : Nat := popAux 64 n

/-- Apply a list of array writes (later writes win), the effect of a loop
of `table[key] = value;` statements on a table. -/
def applyWrites {α β : Type} [DecidableEq α] (f : α → β) (ws : List (α × β)) : α → β :=
  ws.foldl (fun g kv => Function.update g kv.1 kv.2) f

/-- The last value written for a key by a list of writes, if any. -/
def lookupLast {α β : Type} [DecidableEq α] : List (α × β) → α → Option β
  | [], _ => none
  | p :: r, k =>
    if (lookupLast r k).isSome then lookupLast r k
    else if p.1 = k then some p.2 else none

set_option genInjectivity false in
/-- The ruleset entity (`Variant`): the raw fields read by `conclude` and
`parse_istream`, plus the derived fields `conclude` writes.  Raw fields the
excerpted code never reads are omitted. -/
structure Variant where
  -- raw fields
  maxRank : Nat
  maxFile : Nat
  pieceTypes : Nat
  pieceToChar : List Char
  pieceToCharSynonyms : List Char
  startFen : List Char
  doubleStep : Bool
  doubleStepRegion : Color → Nat
  mobilityRegion : Color → Nat → Nat
  kingType : Nat
  cambodianMoves : Bool
  diagonalLines : Nat
  extinctionValue : Int
  extinctionPieceCount : Int
  extinctionPieceTypes : Nat
  promotionPawnTypes : Color → Nat
  promotionPieceTypes : Color → Nat
  promotedPieceType : Nat → Nat
  pieceDrops : Bool
  capturesToHand : Bool
  mustDrop : Bool
  seirawanGating : Bool
  twoBoards : Bool
  checkmateValue : Int
  stalemateValue : Int
  materialCounting : Nat
  flagRegion : Color → Nat
  mustCapture : Bool
  checkCounting : Bool
  makpongRule : Bool
  connectN : Nat
  blastOnCapture : Bool
  petrifyOnCaptureTypes : Nat
  connectHorizontal : Bool
  connectVertical : Bool
  connectDiagonal : Bool
  -- derived fields (written by conclude)
  fastAttacks : Bool
  fastAttacks2 : Bool
  nnueKing : Nat
  nnueUsePockets : Bool
  pieceSquareIndex : Color × Nat → Int
  pieceHandIndex : Color × Nat → Int
  kingSquareIndex : Nat → Int
  nnueDimensions : Int
  nnueMaxPieces : Nat
  endgameEval : Bool
  shogiStylePromotions : Bool
  connect_directions : List Int

/-- Step 1 of `conclude`: double-step consistency.  Clears both regions if
`doubleStep` is off, then turns `doubleStep` off if both regions are empty. -/
def doubleStepStep (v : Variant) : Variant :=
  let r : Color → Nat := if v.doubleStep then v.doubleStepRegion else fun _ => 0
  { v with
    doubleStepRegion := r,
    doubleStep := if r Color.white = 0 ∧ r Color.black = 0 then false else v.doubleStep }

/-- The `restrictedMobility` scan: walk the set bits of `pieceTypes`
(`pop_lsb`), stopping as soon as a piece type with a non-empty mobility
region for either color is found.  Fuel 64 is the bit width of `PieceSet`. -/
def restrictedAux (mobW mobB : Nat → Nat) : Nat → Nat → Bool
  | 0, _ => false
  | fuel + 1, ps =>
    if ps = 0 then false
    else
      let pt := lsb ps
      if mobW pt ≠ 0 ∨ mobB pt ≠ 0 then true
      else restrictedAux mobW mobB fuel (ps &&& (ps - 1))

def restrictedMobilityOf (x : Variant) : Bool :=
  restrictedAux (x.mobilityRegion Color.white) (x.mobilityRegion Color.black) 64 x.pieceTypes

/-- `fastAttacks` eligibility. -/
def fastAttacksOf (x : Variant) : Bool :=
  decide (x.pieceTypes &&& (mask64 ^^^ (CHESS_PIECES ||| COMMON_FAIRY_PIECES)) = 0) &&
  decide (x.kingType = KING) &&
  !(restrictedMobilityOf x) &&
  !x.cambodianMoves &&
  decide (x.diagonalLines = 0)

/-- `fastAttacks2` eligibility. -/
def fastAttacks2Of (x : Variant) : Bool :=
  decide (x.pieceTypes &&& (mask64 ^^^ (SHOGI_PIECES ||| COMMON_STEP_PIECES)) = 0) &&
  decide (x.kingType = KING) &&
  !(restrictedMobilityOf x) &&
  !x.cambodianMoves &&
  decide (x.diagonalLines = 0)

/-- Character encoding of a piece, `pieceToChar[make_piece(c, pt)]`. -/
def pieceCharOf (x : Variant) (c : Color) (pt : Nat) : Char :=
  x.pieceToChar.getD (make_piece c pt) (Char.ofNat 0)

/-- The board part of the starting position, `startFen.substr(0, startFen.find(' '))`
(`npos` makes this the whole string when there is no space). -/
def fenBoardOf (x : Variant) : List Char :=
  x.startFen.take (x.startFen.findIdx (fun c => c = ' '))

/-- The base choice of the anchor: `pieceTypes & KING ? KING :
extinctionPieceCount == 0 && (extinctionPieceTypes & COMMONER) ? COMMONER :
NO_PIECE_TYPE`. -/
def anchorBase (x : Variant) : Nat :=
  if x.pieceTypes &&& pieceSet KING ≠ 0 then KING
  else if x.extinctionPieceCount = 0 ∧ x.extinctionPieceTypes &&& pieceSet COMMONER ≠ 0 then
    COMMONER
  else NO_PIECE_TYPE

/-- The promotion-involvement test of the candidate anchor: its count might
change if it is a promotion pawn or promotion target of either color, or a
promoted-form alias of any type. -/
def promoRejected (x : Variant) (b : Nat) : Bool :=
  ((x.promotionPawnTypes Color.white ||| x.promotionPawnTypes Color.black) &&& pieceSet b != 0)
  || ((x.promotionPieceTypes Color.white ||| x.promotionPieceTypes Color.black) &&& pieceSet b != 0)
  || (List.range PIECE_TYPE_NB).any (fun pt => x.promotedPieceType pt = b)

/-- The uniqueness test of the candidate anchor: its character must occur
exactly once per color in the board part of the FEN. -/
def countRejected (x : Variant) (k : Nat) : Bool :=
  ((fenBoardOf x).count (pieceCharOf x Color.white k) != 1)
  || ((fenBoardOf x).count (pieceCharOf x Color.black k) != 1)

/-- The NNUE feature-anchor selection (`nnueKing`): prefer a literal king in
play, else a royal commoner under a zero extinction piece count; then drop
the candidate if promotion can change its count, or if its character does
not occur exactly once per color in the board part of the FEN. -/
def nnueKingOf (x : Variant) : Nat :=
  let base : Nat := anchorBase x
  let k1 : Nat :=
    if base ≠ NO_PIECE_TYPE ∧ promoRejected x base then NO_PIECE_TYPE else base
  if k1 ≠ NO_PIECE_TYPE ∧ countRejected x k1 then NO_PIECE_TYPE else k1

/-- `nnueSquares = (maxRank + 1) * (maxFile + 1)`. -/
def nnueSquaresOf (x : Variant) : Nat := (x.maxRank + 1) * (x.maxFile + 1)

/-- Whether pocket (hand) feature planes are needed. -/
def nnueUsePocketsOf (x : Variant) : Bool :=
  (x.pieceDrops && (x.capturesToHand || (!x.mustDrop && decide (popcnt64 x.pieceTypes ≠ 1)))) ||
  x.seirawanGating

def nnuePocketsOf (x : Variant) : Nat :=
  if nnueUsePocketsOf x then 2 * (x.maxFile + 1) else 0

def nnueNonDropPieceIndicesOf (x : Variant) : Int :=
  (2 * (popcnt64 x.pieceTypes : Int) - (if nnueKingOf x ≠ NO_PIECE_TYPE then 1 else 0)) *
    (nnueSquaresOf x : Int)

def nnuePieceIndicesOf (x : Variant) : Int :=
  nnueNonDropPieceIndicesOf x +
    2 * ((popcnt64 x.pieceTypes : Int) - (if nnueKingOf x ≠ NO_PIECE_TYPE then 1 else 0)) *
      (nnuePocketsOf x : Int)

/-- Iteration order of the piece-index loop: repeatedly take the lowest set
bit of `ps` excluding the anchor, so the anchor type comes last.  Fuel 64 is
the bit width of `PieceSet`, which bounds the iteration count of the C++
loop (each step clears one set bit of a `uint64_t`). -/
def pieceIterAux (nk : Nat) : Nat → Nat → List Nat
  | 0, _ => []
  | fuel + 1, ps =>
    if ps = 0 then []
    else
      let pt := if ps ≠ pieceSet nk then lsb (ps &&& (mask64 ^^^ pieceSet nk)) else lsb ps
      pt :: pieceIterAux nk fuel (ps ^^^ pieceSet pt)

def pieceIterOrder (nk ps : Nat) : List Nat := pieceIterAux nk 64 ps

/-- The writes of the piece loop into `pieceSquareIndex[c][piece]`, in
program order (for each piece type, each color writes its own-color and
opposite-color piece entries). -/
def pieceSquareWrites (x : Variant) : List ((Color × Nat) × Int) :=
  let nk := nnueKingOf x
  let sq : Int := (nnueSquaresOf x : Int)
  ((pieceIterOrder nk x.pieceTypes).enum).flatMap (fun pr =>
    let i : Int := (pr.1 : Int)
    let pt := pr.2
    let opp : Int := if pt ≠ nk then 1 else 0
    [((Color.white, make_piece Color.white pt), 2 * i * sq),
     ((Color.white, make_piece Color.black pt), (2 * i + opp) * sq),
     ((Color.black, make_piece Color.black pt), 2 * i * sq),
     ((Color.black, make_piece Color.white pt), (2 * i + opp) * sq)])

/-- The writes of the piece loop into `pieceHandIndex[c][piece]`. -/
def pieceHandWrites (x : Variant) : List ((Color × Nat) × Int) :=
  let nk := nnueKingOf x
  let pk : Int := (nnuePocketsOf x : Int)
  let ndi : Int := nnueNonDropPieceIndicesOf x
  ((pieceIterOrder nk x.pieceTypes).enum).flatMap (fun pr =>
    let i : Int := (pr.1 : Int)
    let pt := pr.2
    [((Color.white, make_piece Color.white pt), 2 * i * pk + ndi),
     ((Color.white, make_piece Color.black pt), (2 * i + 1) * pk + ndi),
     ((Color.black, make_piece Color.black pt), 2 * i * pk + ndi),
     ((Color.black, make_piece Color.white pt), (2 * i + 1) * pk + ndi)])

/-- Bit test of a bitboard at a (possibly negative) square computed in int
arithmetic; shifting by a negative amount is UB in C++ and modelled as an
empty mask. -/
def bbBit (b : Nat) (z : Int) : Bool := decide (0 ≤ z) && b.testBit z.toNat

/-- Whether the king-square loop assigns an index to loop square `s`: no
per-color mobility restriction on the anchor, or the anchor allowed on the
corresponding bitboard square for one of the orientations.
`bitboardSquare = s + s / (maxFile + 1) * (FILE_MAX - maxFile)` and the
black orientation flips the rank within `maxRank`. -/
def kingReach (x : Variant) (nk : Nat) (s : Nat) : Bool :=
  let mw := x.mobilityRegion Color.white nk
  let mb := x.mobilityRegion Color.black nk
  let bbS : Int := (s : Int) + (s / (x.maxFile + 1) : Nat) * ((FILE_MAX : Int) - (x.maxFile : Int))
  let flipped : Int := ((x.maxRank : Int) - bbS / (FILE_NB : Int)) * (FILE_NB : Int) + bbS % (FILE_NB : Int)
  decide (mw = 0) || decide (mb = 0) || bbBit mw bbS || bbBit mb flipped

/-- The king-square loop over squares `0 .. n-1`: writes
`kingSquareIndex[s] = counter++ * nnuePieceIndices` at each reachable
square, returning the writes and the final counter. -/
def kingLoopGo (r : Nat → Bool) (npi : Int) : Nat → List (Nat × Int) × Nat
  | 0 => ([], 0)
  | n + 1 =>
    let p := kingLoopGo r npi n
    if r n then (p.1 ++ [(n, (p.2 : Int) * npi)], p.2 + 1) else p

/-- The writes into `kingSquareIndex`: the per-square loop when an anchor
was chosen and the square count fits the table, else the single fallback
entry at `SQ_A1`. -/
def kingSquareWrites (x : Variant) : List (Nat × Int) :=
  let nk := nnueKingOf x
  let n := nnueSquaresOf x
  let npi := nnuePieceIndicesOf x
  if nk ≠ NO_PIECE_TYPE ∧ n ≤ SQUARE_NB then (kingLoopGo (kingReach x nk) npi n).1
  else [(0, 0 * npi)]

/-- Final value of the `nnueKingSquare` counter. -/
def kingCounterOf (x : Variant) : Nat :=
  let nk := nnueKingOf x
  let n := nnueSquaresOf x
  if nk ≠ NO_PIECE_TYPE ∧ n ≤ SQUARE_NB then (kingLoopGo (kingReach x nk) (nnuePieceIndicesOf x) n).2
  else 1

def nnueDimensionsOf (x : Variant) : Int :=
  (kingCounterOf x : Int) * nnuePieceIndicesOf x

/-- The maximum-piece-count scan: read `startFen` character by character,
stop at the first whitespace, count characters occurring in `pieceToChar`
or `pieceToCharSynonyms`. -/
def countPiecesGo (pc syn : List Char) : List Char → Nat
  | [] => 0
  | c :: r =>
    if isspaceChar c then 0
    else (if pc.contains c || syn.contains c then 1 else 0) + countPiecesGo pc syn r

def nnueMaxPiecesOf (x : Variant) : Nat :=
  let m := countPiecesGo x.pieceToChar x.pieceToCharSynonyms x.startFen
  if x.twoBoards then m * 2 else m

/-- Endgame-evaluation eligibility: no special win rules and no rules that
significantly change game mechanics. -/
def endgameEvalOf (x : Variant) : Bool :=
  decide (x.extinctionValue = VALUE_NONE) &&
  decide (x.checkmateValue = -VALUE_MATE) &&
  decide (x.stalemateValue = VALUE_DRAW) &&
  decide (x.materialCounting = 0) &&
  !(decide (x.flagRegion Color.white ≠ 0) || decide (x.flagRegion Color.black ≠ 0)) &&
  !x.mustCapture &&
  !x.checkCounting &&
  !x.makpongRule &&
  decide (x.connectN = 0) &&
  !x.blastOnCapture &&
  decide (x.petrifyOnCaptureTypes = 0) &&
  !x.capturesToHand &&
  !x.twoBoards &&
  !(restrictedMobilityOf x) &&
  decide (x.kingType = KING)

/-- `shogiStylePromotions`: some entry of the `promotedPieceType` array is a
real piece type. -/
def shogiStylePromotionsOf (x : Variant) : Bool :=
  (List.range PIECE_TYPE_NB).any (fun pt => decide (x.promotedPieceType pt ≠ NO_PIECE_TYPE))

/-- The connection-win directions, rebuilt from the three axis toggles. -/
def connectDirsOf (x : Variant) : List Int :=
  (if x.connectHorizontal then [EAST] else []) ++
  (if x.connectVertical then [NORTH] else []) ++
  (if x.connectDiagonal then [NORTH_EAST, SOUTH_EAST] else [])

/-- Fill all derived fields from the raw fields (steps 2-10 of `conclude`). -/
def deriveFields (x : Variant) : Variant :=
  { x with
    fastAttacks := fastAttacksOf x,
    fastAttacks2 := fastAttacks2Of x,
    nnueKing := nnueKingOf x,
    nnueUsePockets := nnueUsePocketsOf x,
    pieceSquareIndex := applyWrites x.pieceSquareIndex (pieceSquareWrites x),
    pieceHandIndex := applyWrites x.pieceHandIndex (pieceHandWrites x),
    kingSquareIndex := applyWrites x.kingSquareIndex (kingSquareWrites x),
    nnueDimensions := nnueDimensionsOf x,
    nnueMaxPieces := nnueMaxPiecesOf x,
    endgameEval := endgameEvalOf x,
    shogiStylePromotions := shogiStylePromotionsOf x,
    connect_directions := connectDirsOf x }

/-- `Variant::conclude`: the double-step consistency pass followed by the
computation of every derived field. -/
def Variant.conclude (v : Variant) : Variant := deriveFields (doubleStepStep v)

/-! ## The registry (`VariantMap`) and the configuration parser -/

/-- Strings are lists of characters throughout the parser model. -/
abbrev Str := List Char

/-- The registry contents: an association list standing for the ordered map
`std::map<std::string, const Variant*>` (key order abstracted). -/
abbrev Registry := List (Str × Variant)

/-- `map::find`: the value stored under a key, if any. -/
def mfind {α : Type} : List (Str × α) → Str → Option α
  | [], _ => none
  | p :: r, k => if p.1 = k then some p.2 else mfind r k

/-- `map::insert`: a no-op when the key is already present (it does NOT
overwrite), otherwise adds the new entry. -/
def minsert {α : Type} (l : List (Str × α)) (k : Str) (v : α) : List (Str × α) :=
  if (mfind l k).isSome then l else l ++ [(k, v)]

/-- `map::erase(key)`: remove the entry of a key. -/
def mErase {α : Type} : List (Str × α) → Str → List (Str × α)
  | [], _ => []
  | p :: r, k => if p.1 = k then r else p :: mErase r k

/-- `VariantMap::add(s, v)`: run the derivation engine, then insert the
concluded ruleset under the name. -/
def VariantMap.add (reg : Registry) (s : Str) (v : Variant) : Registry :=
  minsert reg s v.conclude

/-- Diagnostics written to `std::cerr` by `parse_istream`. -/
inductive Diag where
  | invalidSyntax (line : Str) : Diag
  | alreadyExists (name : Str) : Diag
  | missingTemplate (name : Str) : Diag
  | parsingVariant (name : Str) : Diag
deriving DecidableEq, Repr

/-- One bracketed section of the input stream, after stream tokenization:
the text between `[` and `]` and the following lines up to the next `[`. -/
structure RawSection where
  header : Str
  lines : List Str
deriving Repr

/-- Split a section header `name:templateName` at the first `:`; the
template name is empty when there is no `:` or nothing follows it. -/
def splitHeader (h : Str) : Str × Str :=
  let name := h.takeWhile (fun c => c ≠ ':')
  let rest := (h.dropWhile (fun c => c ≠ ':')).drop 1
  (name, rest)

/-- Strip one trailing carriage return from a line. -/
def stripCR (l : Str) : Str :=
  if l.getLast? = some '\r' then l.dropLast else l

/-- Trailing-space trim applied to keys,
`key.erase(key.find_last_not_of(" ") + 1)`. -/
def rtrimSpaces (l : Str) : Str := (l.reverse.dropWhile (fun c => c = ' ')).reverse

/-- Extract the key/value pair of one line, mirroring
`std::getline(std::getline(ss, key, '=') >> std::ws, value) && !key.empty()`:
the key is everything before the first `=` (the whole line if none), the
value is the rest with leading whitespace skipped; the extraction fails
when nothing remains for the value or the untrimmed key is empty. -/
def lineKV (input : Str) : Option (Str × Str) :=
  let key := input.takeWhile (fun c => c ≠ '=')
  let value := ((input.dropWhile (fun c => c ≠ '=')).drop 1).dropWhile isspaceChar
  if value = [] then none
  else if key = [] then none
  else some (rtrimSpaces key, value)

/-- The collected `key -> value` attribute map of a section; `operator[]`
assignment overwrites an existing key. -/
abbrev Config := List (Str × Str)

def upsert : Config → Str → Str → Config
  | [], k, v => [(k, v)]
  | p :: r, k, v => if p.1 = k then (k, v) :: r else p :: upsert r k v

/-- The attribute-collection effect of the line loop (comment lines start
with `;` or `#` after CR stripping). -/
def collectAttribs (lines : List Str) : Config :=
  lines.foldl (fun acc raw =>
    let input := stripCR raw
    if input.head? = some ';' ∨ input.head? = some '#' then acc
    else
      match lineKV input with
      | some kv => upsert acc kv.1 kv.2
      | none => acc) []

/-- The diagnostics of the line loop: in checking mode, each non-comment
non-empty line without `=` is reported as invalid syntax. -/
def collectDiags (doCheck : Bool) (lines : List Str) : List Diag :=
  lines.foldl (fun acc raw =>
    let input := stripCR raw
    if input.head? = some ';' ∨ input.head? = some '#' then acc
    else if doCheck ∧ input ≠ [] ∧ input.contains '=' = false then
      acc ++ [Diag.invalidSyntax input]
    else acc) []

/-- State threaded through `parse_istream`: the global registry, the list
of transient names (`varsToErase`), a ghost log of the rulesets the pass
registered, the rulesets `delete`d, and the diagnostics. -/
structure ParseState where
  registry : Registry
  varsToErase : List Str
  added : List (Str × Variant)
  freed : List Variant
  diags : List Diag

/-- The ruleset a section builds: the external `VariantParser` applied to
the collected attributes and, when a template is named, to (a deep copy of)
the registered template.  The parser and `Variant::init` live outside this
excerpt, so they are one abstract function `applyFn`; every theorem below
holds for all of them. -/
def sectionVariant (applyFn : Config → Option Variant → Variant)
    (st : ParseState) (sec : RawSection) : Variant :=
  let nt := splitHeader sec.header
  applyFn (collectAttribs sec.lines)
    (if nt.2 ≠ [] then mfind st.registry nt.2 else none)

/-- The diagnostics a section emits before (and independently of) the
board-extent check: the line diagnostics and, in checking mode, the
"Parsing variant" notice. -/
def sectionPreDiags (doCheck : Bool) (sec : RawSection) : List Diag :=
  collectDiags doCheck sec.lines ++
    (if doCheck then [Diag.parsingVariant (splitHeader sec.header).1] else [])

/-- Process one section of the stream: collect lines, check name collision
and template existence, build and derive the ruleset, and register it when
the board extent fits (remembering the name in checking mode), else delete
it silently. -/
def processSection (applyFn : Config → Option Variant → Variant) (doCheck : Bool)
    (st : ParseState) (sec : RawSection) : ParseState :=
  let nt := splitHeader sec.header
  let cd := collectDiags doCheck sec.lines
  if (mfind st.registry nt.1).isSome then
    { st with diags := st.diags ++ cd ++ [Diag.alreadyExists nt.1] }
  else if nt.2 ≠ [] ∧ (mfind st.registry nt.2).isNone then
    { st with diags := st.diags ++ cd ++ [Diag.missingTemplate nt.2] }
  else
    let pv : List Diag := if doCheck then [Diag.parsingVariant nt.1] else []
    let v := sectionVariant applyFn st sec
    if v.maxFile ≤ FILE_MAX ∧ v.maxRank ≤ RANK_MAX then
      { st with
        diags := st.diags ++ cd ++ pv,
        registry := VariantMap.add st.registry nt.1 v,
        added := st.added ++ [(nt.1, v.conclude)],
        varsToErase := if doCheck then st.varsToErase ++ [nt.1] else st.varsToErase }
    else { st with diags := st.diags ++ cd ++ pv, freed := st.freed ++ [v] }

/-- The end-of-pass cleanup loop: for each transient name, `delete
variants[tempVar]` then `variants.erase(tempVar)`. -/
def cleanupGo : Registry → List Variant → List Str → Registry × List Variant
  | reg, fr, [] => (reg, fr)
  | reg, fr, n :: rest => cleanupGo (mErase reg n) (fr ++ (mfind reg n).toList) rest

def cleanupPass (doCheck : Bool) (st : ParseState) : ParseState :=
  if doCheck then
    let p := cleanupGo st.registry st.freed st.varsToErase
    { st with registry := p.1, freed := p.2 }
  else st

/-- `VariantMap::parse_istream` at section granularity (the character-level
framing of headers and line splitting is the stream tokenization, which is
abstracted into `RawSection`): process every section in order, then clean
up the transient registrations in checking mode. -/
def parseStream (applyFn : Config → Option Variant → Variant) (doCheck : Bool)
    (secs : List RawSection) (reg0 : Registry) : ParseState :=
  cleanupPass doCheck (secs.foldl (processSection applyFn doCheck)
    ⟨reg0, [], [], [], []⟩)

/-! ## Generic lemmas about write lists and the association-list registry -/

theorem lookupLast_append_single {α β : Type} [DecidableEq α]
    (l : List (α × β)) (a : α) (b : β) (k : α) :
    lookupLast (l ++ [(a, b)]) k = if a = k then some b else lookupLast l k := by
  induction l with
  | nil => by_cases h : a = k <;> simp [lookupLast, h]
  | cons p r ih =>
      by_cases h : a = k
      · subst h
        simp [lookupLast, ih]
      · simp [lookupLast, ih, h]

theorem applyWrites_apply {α β : Type} [DecidableEq α]
    (f : α → β) (ws : List (α × β)) (k : α) :
    applyWrites f ws k = (lookupLast ws k).getD (f k) := by
  induction ws generalizing f with
  | nil => rfl
  | cons p r ih =>
      show applyWrites (Function.update f p.1 p.2) r k = _
      rw [ih]
      cases h : lookupLast r k with
      | some v => simp [lookupLast, h]
      | none =>
          by_cases hpk : p.1 = k
          · simp [lookupLast, h, hpk, Function.update_apply]
          · simp [lookupLast, h, hpk, Function.update_apply, Ne.symm hpk]

theorem applyWrites_idem {α β : Type} [DecidableEq α]
    (f : α → β) (ws : List (α × β)) :
    applyWrites (applyWrites f ws) ws = applyWrites f ws := by
  funext k
  rw [applyWrites_apply, applyWrites_apply]
  cases h : lookupLast ws k with
  | some v => simp
  | none => simp [applyWrites_apply, h]

/-! Characterization of the king-square loop. -/

/-- Number of reachable squares strictly below `n`. -/
def rcount (r : Nat → Bool) (n : Nat) : Nat := ((List.range n).filter r).length

theorem rcount_succ (r : Nat → Bool) (n : Nat) :
    rcount r (n + 1) = rcount r n + if r n then 1 else 0 := by
  simp only [rcount, List.range_succ, List.filter_append, List.length_append]
  cases h : r n <;> simp [h]

theorem rcount_le (r : Nat → Bool) {m n : Nat} (h : m ≤ n) :
    rcount r m ≤ rcount r n := by
  induction n with
  | zero => simp [Nat.le_zero.mp h]
  | succ n ih =>
      rcases Nat.lt_or_ge m (n + 1) with h1 | h1
      · have h2 := ih (Nat.lt_succ_iff.mp h1)
        have h3 := rcount_succ r n
        cases hr : r n <;> simp [hr] at h3 <;> omega
      · have hmn : m = n + 1 := le_antisymm h h1
        simp [hmn]

theorem rcount_lt (r : Nat → Bool) {s n : Nat} (hs : s < n) (hr : r s = true) :
    rcount r s < rcount r n := by
  have h1 : rcount r s < rcount r (s + 1) := by simp [rcount_succ, hr]
  exact lt_of_lt_of_le h1 (rcount_le r hs)

theorem kingLoopGo_counter (r : Nat → Bool) (npi : Int) (n : Nat) :
    (kingLoopGo r npi n).2 = rcount r n := by
  induction n with
  | zero => rfl
  | succ n ih =>
      rw [rcount_succ]
      cases h : r n <;> simp [kingLoopGo, h, ih]

theorem kingLoopGo_keys_lt (r : Nat → Bool) (npi : Int) (n : Nat) :
    ∀ p ∈ (kingLoopGo r npi n).1, p.1 < n := by
  induction n with
  | zero => intro p hp; simp [kingLoopGo] at hp
  | succ n ih =>
      intro p hp
      cases h : r n with
      | false =>
          simp only [kingLoopGo, h] at hp
          simp at hp
          exact Nat.lt_succ_of_lt (ih p hp)
      | true =>
          simp only [kingLoopGo, h] at hp
          simp at hp
          rcases hp with h1 | h1
          · exact Nat.lt_succ_of_lt (ih p h1)
          · rw [h1]; exact Nat.lt_succ_self n

theorem kingLoopGo_lookup_some (r : Nat → Bool) (npi : Int) {n s : Nat}
    (hs : s < n) (hr : r s = true) :
    lookupLast (kingLoopGo r npi n).1 s = some ((rcount r s : Int) * npi) := by
  induction n with
  | zero => omega
  | succ n ih =>
      cases h : r n with
      | true =>
          have hunf : (kingLoopGo r npi (n + 1)).1
              = (kingLoopGo r npi n).1 ++ [(n, ((kingLoopGo r npi n).2 : Int) * npi)] := by
            simp [kingLoopGo, h]
          rw [hunf, lookupLast_append_single]
          by_cases hsn : s = n
          · subst hsn
            simp [kingLoopGo_counter]
          · have hlt : s < n := by omega
            simp [Ne.symm hsn, ih hlt]
      | false =>
          have hunf : (kingLoopGo r npi (n + 1)).1 = (kingLoopGo r npi n).1 := by
            simp [kingLoopGo, h]
          rw [hunf]
          have hsn : s ≠ n := by
            intro he; rw [he, h] at hr; cases hr
          exact ih (by omega)

theorem kingLoopGo_lookup_none (r : Nat → Bool) (npi : Int) {n s : Nat}
    (h : ¬(s < n ∧ r s = true)) :
    lookupLast (kingLoopGo r npi n).1 s = none := by
  induction n with
  | zero => rfl
  | succ n ih =>
      cases hrn : r n with
      | true =>
          have hunf : (kingLoopGo r npi (n + 1)).1
              = (kingLoopGo r npi n).1 ++ [(n, ((kingLoopGo r npi n).2 : Int) * npi)] := by
            simp [kingLoopGo, hrn]
          rw [hunf, lookupLast_append_single]
          have hsn : n ≠ s := by
            intro he; subst he; exact h ⟨Nat.lt_succ_self n, hrn⟩
          rw [if_neg hsn]
          refine ih ?_
          rintro ⟨h1, h2⟩
          exact h ⟨by omega, h2⟩
      | false =>
          have hunf : (kingLoopGo r npi (n + 1)).1 = (kingLoopGo r npi n).1 := by
            simp [kingLoopGo, hrn]
          rw [hunf]
          refine ih ?_
          rintro ⟨h1, h2⟩
          have hsn : s ≠ n := by
            intro he; rw [he, hrn] at h2; cases h2
          exact h ⟨by omega, h2⟩

theorem kingLoopGo_surj (r : Nat → Bool) (npi : Int) (n : Nat) :
    ∀ k, k < rcount r n → ∃ s, s < n ∧ r s = true ∧ rcount r s = k := by
  induction n with
  | zero => intro k hk; simp [rcount] at hk
  | succ n ih =>
      intro k hk
      rw [rcount_succ] at hk
      cases hrn : r n with
      | true =>
          rw [hrn] at hk; simp at hk
          by_cases hkn : k = rcount r n
          · exact ⟨n, Nat.lt_succ_self n, hrn, hkn.symm⟩
          · obtain ⟨s, h1, h2, h3⟩ := ih k (by omega)
            exact ⟨s, by omega, h2, h3⟩
      | false =>
          rw [hrn] at hk; simp at hk
          obtain ⟨s, h1, h2, h3⟩ := ih k hk
          exact ⟨s, by omega, h2, h3⟩

/-! Association-list registry lemmas. -/

theorem mfind_append_none {α : Type} {a : List (Str × α)} {k : Str}
    (b : List (Str × α)) (h : mfind a k = none) :
    mfind (a ++ b) k = mfind b k := by
  induction a with
  | nil => rfl
  | cons p r ih =>
      by_cases hp : p.1 = k
      · simp [mfind, hp] at h
      · simp only [List.cons_append]
        simp [mfind, hp] at h ⊢
        exact ih h

theorem mErase_append_left {α : Type} {a : List (Str × α)} {k : Str}
    (b : List (Str × α)) (h : mfind a k = none) :
    mErase (a ++ b) k = a ++ mErase b k := by
  induction a with
  | nil => rfl
  | cons p r ih =>
      by_cases hp : p.1 = k
      · simp [mfind, hp] at h
      · simp only [List.cons_append]
        simp [mfind, hp] at h
        simp [mErase, hp, ih h]

theorem mfind_of_nodup {α : Type} {l : List (Str × α)} {k : Str} {v : α}
    (hn : (l.map Prod.fst).Nodup) (hm : (k, v) ∈ l) :
    mfind l k = some v := by
  induction l with
  | nil => cases hm
  | cons p r ih =>
      rcases List.mem_cons.mp hm with h | h
      · rw [← h]; simp [mfind]
      · have hp : p.1 ≠ k := by
          intro he
          rw [List.map_cons, List.nodup_cons] at hn
          exact hn.1 (he ▸ List.mem_map.mpr ⟨(k, v), h, rfl⟩)
        rw [List.map_cons, List.nodup_cons] at hn
        simp only [mfind, hp, if_neg, not_false_iff]
        simpa using ih hn.2 h

/-! ## Concrete rulesets used by witnesses and counterexamples -/

/-- A concrete ruleset: an 8x8 board with only a king in play, one king of
each color in the FEN, and every special rule disabled. -/
def wBase : Variant where
  maxRank := 7
  maxFile := 7
  pieceTypes := pieceSet KING
  pieceToChar := (List.replicate 63 '.') ++ ['K'] ++ (List.replicate 63 '.') ++ ['k']
  pieceToCharSynonyms := []
  startFen := ['K', 'k', ' ', 'w']
  doubleStep := true
  doubleStepRegion := fun _ => 0
  mobilityRegion := fun _ _ => 0
  kingType := KING
  cambodianMoves := false
  diagonalLines := 0
  extinctionValue := VALUE_NONE
  extinctionPieceCount := 0
  extinctionPieceTypes := 0
  promotionPawnTypes := fun _ => 0
  promotionPieceTypes := fun _ => 0
  promotedPieceType := fun _ => 0
  pieceDrops := false
  capturesToHand := false
  mustDrop := false
  seirawanGating := false
  twoBoards := false
  checkmateValue := -VALUE_MATE
  stalemateValue := VALUE_DRAW
  materialCounting := 0
  flagRegion := fun _ => 0
  mustCapture := false
  checkCounting := false
  makpongRule := false
  connectN := 0
  blastOnCapture := false
  petrifyOnCaptureTypes := 0
  connectHorizontal := false
  connectVertical := true
  connectDiagonal := false
  fastAttacks := false
  fastAttacks2 := false
  nnueKing := 0
  nnueUsePockets := false
  pieceSquareIndex := fun _ => 0
  pieceHandIndex := fun _ => 0
  kingSquareIndex := fun _ => 0
  nnueDimensions := 0
  nnueMaxPieces := 0
  endgameEval := false
  shogiStylePromotions := false
  connect_directions := []

/-- A ruleset whose raw geometry exceeds the supported board extent. -/
def wBig : Variant := { wBase with maxRank := 200 }

/-! ## Claims -/

/-- Claim C4: after `conclude`, `doubleStep` is false iff both colors'
double-step regions are empty; if `doubleStep` was disabled on entry both
regions are cleared, and if both regions are empty on entry `doubleStep`
is set to false. -/
theorem conclude_doubleStep_consistency (v : Variant) :
    ((v.conclude).doubleStep = false ↔
      (v.conclude).doubleStepRegion Color.white = 0 ∧
        (v.conclude).doubleStepRegion Color.black = 0)
    ∧ (v.doubleStep = false →
        (v.conclude).doubleStepRegion Color.white = 0 ∧
          (v.conclude).doubleStepRegion Color.black = 0)
    ∧ ((v.doubleStepRegion Color.white = 0 ∧ v.doubleStepRegion Color.black = 0) →
        (v.conclude).doubleStep = false) := by
  cases hds : v.doubleStep with
  | false =>
      unfold Variant.conclude deriveFields doubleStepStep
      simp [hds]
  | true =>
      unfold Variant.conclude deriveFields doubleStepStep
      by_cases hw : v.doubleStepRegion Color.white = 0 <;>
        by_cases hb : v.doubleStepRegion Color.black = 0 <;>
          simp [hds, hw, hb]

/-- Claim C4 witness: a run of `conclude` on a concrete ruleset with
`doubleStep` set but both regions empty turns the flag off. -/
theorem conclude_doubleStep_consistency_witness :
    (wBase.conclude).doubleStep = false :=
  (conclude_doubleStep_consistency wBase).2.2 ⟨rfl, rfl⟩

/-- Claim C1 counterexample: `add` on a name that is already registered
does NOT overwrite the earlier registry entry — `std::map::insert` keeps
the old value, so the entry still holds the earlier ruleset, which differs
from the concluded later one. -/
theorem add_overwrite_cex :
    mfind (VariantMap.add [(['a'], wBase)] ['a'] { wBase with maxRank := 5 }) ['a']
      = some wBase
    ∧ wBase.maxRank ≠ (({ wBase with maxRank := 5 } : Variant).conclude).maxRank := by
  exact ⟨rfl, by decide⟩

/-- Claim C1 (amended): `add(name, ruleset)` runs the derivation engine and
then inserts; on a fresh name the concluded ruleset is stored, but when
the name is already present the insert is a no-op and the earlier entry is
kept. -/
theorem add_concludes_and_keeps (reg : Registry) (s : Str) (v w : Variant) :
    (mfind reg s = none → mfind (VariantMap.add reg s v) s = some v.conclude)
    ∧ (mfind reg s = some w → mfind (VariantMap.add reg s v) s = some w) := by
  constructor
  · intro h
    unfold VariantMap.add minsert
    rw [h]
    simp only [Option.isSome_none, Bool.false_eq_true, if_false]
    rw [mfind_append_none _ h]
    simp [mfind]
  · intro h
    unfold VariantMap.add minsert
    rw [h]
    simpa using h

/-- Claim C1 witness: a fresh-name `add` stores the concluded ruleset. -/
theorem add_concludes_and_keeps_witness :
    mfind (VariantMap.add [] ['b'] wBase) ['b'] = some wBase.conclude :=
  (add_concludes_and_keeps [] ['b'] wBase wBase).1 rfl

/-- Claim C8: every write into `kingSquareIndex` stays inside the table
(index below `SQUARE_NB`), and when the computed square count exceeds the
table size the per-square loop is skipped entirely in favor of the single
fallback entry, leaving every other square of the table untouched. -/
theorem conclude_oob_safe (v : Variant) :
    (∀ p ∈ kingSquareWrites (doubleStepStep v), p.1 < SQUARE_NB)
    ∧ (SQUARE_NB < nnueSquaresOf v →
        kingSquareWrites (doubleStepStep v) = [(0, 0)]
        ∧ ∀ s, s ≠ 0 → (v.conclude).kingSquareIndex s = v.kingSquareIndex s) := by
  constructor
  · intro p hp
    unfold kingSquareWrites at hp
    by_cases hc : nnueKingOf (doubleStepStep v) ≠ NO_PIECE_TYPE ∧
        nnueSquaresOf (doubleStepStep v) ≤ SQUARE_NB
    · rw [if_pos hc] at hp
      exact lt_of_lt_of_le (kingLoopGo_keys_lt _ _ _ p hp) hc.2
    · rw [if_neg hc] at hp
      have hp1 : p = (0, 0 * nnuePieceIndicesOf (doubleStepStep v)) :=
        List.mem_singleton.mp hp
      rw [hp1]
      show (0 : Nat) < SQUARE_NB
      decide
  · intro h
    have hn : nnueSquaresOf (doubleStepStep v) = nnueSquaresOf v := rfl
    have hc : ¬(nnueKingOf (doubleStepStep v) ≠ NO_PIECE_TYPE ∧
        nnueSquaresOf (doubleStepStep v) ≤ SQUARE_NB) := by
      rw [hn]; omega
    have hw : kingSquareWrites (doubleStepStep v) = [(0, 0)] := by
      unfold kingSquareWrites
      rw [if_neg hc]
      norm_num
    refine ⟨hw, fun s hs => ?_⟩
    show applyWrites (doubleStepStep v).kingSquareIndex (kingSquareWrites (doubleStepStep v)) s
      = v.kingSquareIndex s
    rw [hw]
    show Function.update (doubleStepStep v).kingSquareIndex 0 0 s = v.kingSquareIndex s
    rw [Function.update_apply, if_neg hs]
    rfl

/-- Claim C8 witness: a ruleset whose geometry exceeds the table gets only
the fallback entry, and the rest of the table is untouched. -/
theorem conclude_oob_safe_witness :
    SQUARE_NB < nnueSquaresOf wBig
    ∧ kingSquareWrites (doubleStepStep wBig) = [(0, 0)]
    ∧ (wBig.conclude).kingSquareIndex 5 = wBig.kingSquareIndex 5 := by
  refine ⟨by decide, ?_, ?_⟩
  · exact ((conclude_oob_safe wBig).2 (by decide)).1
  · exact ((conclude_oob_safe wBig).2 (by decide)).2 5 (by decide)

/-! ## Idempotence of the derivation engine -/

theorem dss_eq_self (x : Variant)
    (hd : (if (if x.doubleStep then x.doubleStepRegion else fun _ => 0) Color.white = 0
            ∧ (if x.doubleStep then x.doubleStepRegion else fun _ => 0) Color.black = 0
           then false else x.doubleStep) = x.doubleStep)
    (hr : (if x.doubleStep then x.doubleStepRegion else fun _ => 0) = x.doubleStepRegion) :
    doubleStepStep x = x := by
  show ({ x with
      doubleStepRegion := if x.doubleStep then x.doubleStepRegion else fun _ => 0,
      doubleStep := if (if x.doubleStep then x.doubleStepRegion else fun _ => 0) Color.white = 0
          ∧ (if x.doubleStep then x.doubleStepRegion else fun _ => 0) Color.black = 0
        then false else x.doubleStep } : Variant) = x
  rw [hd, hr]

theorem dss_idem (v : Variant) : doubleStepStep (doubleStepStep v) = doubleStepStep v := by
  apply dss_eq_self
  · cases hds : v.doubleStep with
    | false => simp [doubleStepStep, hds]
    | true =>
        by_cases hw : v.doubleStepRegion Color.white = 0
        · by_cases hb : v.doubleStepRegion Color.black = 0
          · have hreg : v.doubleStepRegion = fun _ => (0 : Nat) := by
              funext c
              cases c
              · exact hw
              · exact hb
            simp [doubleStepStep, hds, hreg]
          · simp [doubleStepStep, hds, hw, hb]
        · simp [doubleStepStep, hds, hw]
  · cases hds : v.doubleStep with
    | false => simp [doubleStepStep, hds]
    | true =>
        by_cases hw : v.doubleStepRegion Color.white = 0
        · by_cases hb : v.doubleStepRegion Color.black = 0
          · have hreg : v.doubleStepRegion = fun _ => (0 : Nat) := by
              funext c
              cases c
              · exact hw
              · exact hb
            simp [doubleStepStep, hds, hreg]
          · simp [doubleStepStep, hds, hw, hb]
        · simp [doubleStepStep, hds, hw]

theorem dss_deriveFields_comm (x : Variant) :
    doubleStepStep (deriveFields x) = deriveFields (doubleStepStep x) := rfl

theorem deriveFields_eq_self (x : Variant)
    (h1 : fastAttacksOf x = x.fastAttacks)
    (h2 : fastAttacks2Of x = x.fastAttacks2)
    (h3 : nnueKingOf x = x.nnueKing)
    (h4 : nnueUsePocketsOf x = x.nnueUsePockets)
    (h5 : applyWrites x.pieceSquareIndex (pieceSquareWrites x) = x.pieceSquareIndex)
    (h6 : applyWrites x.pieceHandIndex (pieceHandWrites x) = x.pieceHandIndex)
    (h7 : applyWrites x.kingSquareIndex (kingSquareWrites x) = x.kingSquareIndex)
    (h8 : nnueDimensionsOf x = x.nnueDimensions)
    (h9 : nnueMaxPiecesOf x = x.nnueMaxPieces)
    (h10 : endgameEvalOf x = x.endgameEval)
    (h11 : shogiStylePromotionsOf x = x.shogiStylePromotions)
    (h12 : connectDirsOf x = x.connect_directions) :
    deriveFields x = x := by
  unfold deriveFields
  rw [h1, h2, h3, h4, h5, h6, h7, h8, h9, h10, h11, h12]

theorem deriveFields_idem (x : Variant) : deriveFields (deriveFields x) = deriveFields x := by
  apply deriveFields_eq_self
  · rfl
  · rfl
  · rfl
  · rfl
  · show applyWrites (applyWrites x.pieceSquareIndex (pieceSquareWrites x)) (pieceSquareWrites x)
      = applyWrites x.pieceSquareIndex (pieceSquareWrites x)
    exact applyWrites_idem _ _
  · show applyWrites (applyWrites x.pieceHandIndex (pieceHandWrites x)) (pieceHandWrites x)
      = applyWrites x.pieceHandIndex (pieceHandWrites x)
    exact applyWrites_idem _ _
  · show applyWrites (applyWrites x.kingSquareIndex (kingSquareWrites x)) (kingSquareWrites x)
      = applyWrites x.kingSquareIndex (kingSquareWrites x)
    exact applyWrites_idem _ _
  · rfl
  · rfl
  · rfl
  · rfl
  · rfl

theorem conclude_conclude (v : Variant) : v.conclude.conclude = v.conclude := by
  show deriveFields (doubleStepStep (deriveFields (doubleStepStep v)))
    = deriveFields (doubleStepStep v)
  rw [dss_deriveFields_comm, dss_idem, deriveFields_idem]

/-- Claim C3: `conclude` is idempotent — concluding an already-concluded
ruleset, without changing any raw field in between, leaves every derived
field (`fastAttacks`, `fastAttacks2`, `nnueKing`, `pieceSquareIndex`,
`pieceHandIndex`, `kingSquareIndex`, `nnueDimensions`, `nnueMaxPieces`,
`endgameEval`, `shogiStylePromotions`, `connect_directions`,
`nnueUsePockets`) identical to its value after the first run. -/
theorem conclude_idempotent (v : Variant) :
    (v.conclude.conclude).fastAttacks = (v.conclude).fastAttacks
    ∧ (v.conclude.conclude).fastAttacks2 = (v.conclude).fastAttacks2
    ∧ (v.conclude.conclude).nnueKing = (v.conclude).nnueKing
    ∧ (v.conclude.conclude).pieceSquareIndex = (v.conclude).pieceSquareIndex
    ∧ (v.conclude.conclude).pieceHandIndex = (v.conclude).pieceHandIndex
    ∧ (v.conclude.conclude).kingSquareIndex = (v.conclude).kingSquareIndex
    ∧ (v.conclude.conclude).nnueDimensions = (v.conclude).nnueDimensions
    ∧ (v.conclude.conclude).nnueMaxPieces = (v.conclude).nnueMaxPieces
    ∧ (v.conclude.conclude).endgameEval = (v.conclude).endgameEval
    ∧ (v.conclude.conclude).shogiStylePromotions = (v.conclude).shogiStylePromotions
    ∧ (v.conclude.conclude).connect_directions = (v.conclude).connect_directions
    ∧ (v.conclude.conclude).nnueUsePockets = (v.conclude).nnueUsePockets := by
  rw [conclude_conclude]
  exact ⟨rfl, rfl, rfl, rfl, rfl, rfl, rfl, rfl, rfl, rfl, rfl, rfl⟩

/-! ## Endgame eligibility and anchor selection -/

/-- Claim C7: the derived endgame-eligibility flag is true exactly when
none of the disqualifiers hold: a finite extinction win value, a checkmate
value other than the canonical mate value, a stalemate value other than
draw, material counting, any flag region, forced capture, check counting,
the makpong rule, connect-N, blast on capture, petrify on capture,
captures to hand, two boards, restricted mobility, or a king type other
than the plain king.  Consequently toggling any single disqualifier on,
with all others at their disabling value, makes the flag false. -/
theorem endgameEval_iff (v : Variant) :
    (v.conclude).endgameEval = true ↔
      (v.extinctionValue = VALUE_NONE
       ∧ v.checkmateValue = -VALUE_MATE
       ∧ v.stalemateValue = VALUE_DRAW
       ∧ v.materialCounting = 0
       ∧ v.flagRegion Color.white = 0
       ∧ v.flagRegion Color.black = 0
       ∧ v.mustCapture = false
       ∧ v.checkCounting = false
       ∧ v.makpongRule = false
       ∧ v.connectN = 0
       ∧ v.blastOnCapture = false
       ∧ v.petrifyOnCaptureTypes = 0
       ∧ v.capturesToHand = false
       ∧ v.twoBoards = false
       ∧ restrictedMobilityOf v = false
       ∧ v.kingType = KING) := by
  have h : (v.conclude).endgameEval = endgameEvalOf v := rfl
  rw [h]
  unfold endgameEvalOf
  simp only [Bool.and_eq_true, decide_eq_true_eq, Bool.not_eq_true',
    Bool.or_eq_false_iff, decide_eq_false_iff_not, not_not, and_assoc]

/-- The feature-anchor selection as the specification phrases it, written
independently of the engine's pieceset algebra: bit-membership tests and
the board part taken as the prefix before the first space. -/
def anchorSpec (v : Variant) : Nat :=
  let reject : Nat → Prop := fun b =>
    Nat.testBit (v.promotionPawnTypes Color.white) b
    ∨ Nat.testBit (v.promotionPawnTypes Color.black) b
    ∨ Nat.testBit (v.promotionPieceTypes Color.white) b
    ∨ Nat.testBit (v.promotionPieceTypes Color.black) b
    ∨ (∃ pt ∈ List.range PIECE_TYPE_NB, v.promotedPieceType pt = b)
    ∨ (v.startFen.takeWhile (fun c => c ≠ ' ')).count (pieceCharOf v Color.white b) ≠ 1
    ∨ (v.startFen.takeWhile (fun c => c ≠ ' ')).count (pieceCharOf v Color.black b) ≠ 1
  if Nat.testBit v.pieceTypes KING then (if reject KING then NO_PIECE_TYPE else KING)
  else if v.extinctionPieceCount = 0 ∧ Nat.testBit v.extinctionPieceTypes COMMONER then
    (if reject COMMONER then NO_PIECE_TYPE else COMMONER)
  else NO_PIECE_TYPE

theorem and_pieceSet_ne_zero (x b : Nat) : x &&& pieceSet b ≠ 0 ↔ Nat.testBit x b := by
  have h : pieceSet b = 2 ^ b := by
    unfold pieceSet
    rw [Nat.shiftLeft_eq, one_mul]
  rw [h, Nat.and_two_pow]
  cases hb : Nat.testBit x b
  · simp [hb]
  · have h2 : (2 : Nat) ^ b ≠ 0 := (pow_pos (by norm_num) b).ne'
    simp [hb, h2]

theorem fenBoard_eq_takeWhile (x : Variant) :
    fenBoardOf x = x.startFen.takeWhile (fun c => c ≠ ' ') := by
  unfold fenBoardOf
  induction x.startFen with
  | nil => rfl
  | cons c r ih =>
      by_cases h : c = ' '
      · simp [List.findIdx_cons, List.takeWhile_cons, h]
      · simp [List.findIdx_cons, List.takeWhile_cons, h, ih]

theorem reject_iff (v : Variant) (b : Nat) :
    (promoRejected v b = true ∨ countRejected v b = true) ↔
      (Nat.testBit (v.promotionPawnTypes Color.white) b
       ∨ Nat.testBit (v.promotionPawnTypes Color.black) b
       ∨ Nat.testBit (v.promotionPieceTypes Color.white) b
       ∨ Nat.testBit (v.promotionPieceTypes Color.black) b
       ∨ (∃ pt ∈ List.range PIECE_TYPE_NB, v.promotedPieceType pt = b)
       ∨ (v.startFen.takeWhile (fun c => c ≠ ' ')).count (pieceCharOf v Color.white b) ≠ 1
       ∨ (v.startFen.takeWhile (fun c => c ≠ ' ')).count (pieceCharOf v Color.black b) ≠ 1) := by
  unfold promoRejected countRejected
  rw [fenBoard_eq_takeWhile]
  simp only [Bool.or_eq_true, bne_iff_ne, List.any_eq_true, decide_eq_true_eq,
    and_pieceSet_ne_zero, Nat.testBit_or, or_assoc]

theorem nnueKing_from_base (v : Variant) (b : Nat) (hb : anchorBase v = b)
    (hbn : b ≠ NO_PIECE_TYPE) :
    nnueKingOf v
      = if (promoRejected v b = true ∨ countRejected v b = true) then NO_PIECE_TYPE else b := by
  unfold nnueKingOf
  rw [hb]
  by_cases hP : promoRejected v b = true
  · simp [hP, hbn]
  · by_cases hC : countRejected v b = true <;> simp [hP, hC, hbn]

theorem nnueKing_base_none (v : Variant) (hb : anchorBase v = NO_PIECE_TYPE) :
    nnueKingOf v = NO_PIECE_TYPE := by
  unfold nnueKingOf
  rw [hb]
  simp

/-- Claim C5: the anchor chosen by `conclude` is exactly the anchor the
specification describes: the king type if in play, else the royal
commoner under a zero extinction piece-count threshold with the commoner
among the extinction-triggering types, else none — falling back to none
when the candidate appears among either color's promotion pawn or
promotion piece types, is a promoted-form alias of any type, or its
character does not occur exactly once per color in the board part of the
starting-position description. -/
theorem nnueKing_spec (v : Variant) : (v.conclude).nnueKing = anchorSpec v := by
  have h0 : (v.conclude).nnueKing = nnueKingOf v := rfl
  rw [h0]
  unfold anchorSpec
  by_cases hk : Nat.testBit v.pieceTypes KING
  · have hb : anchorBase v = KING := by
      unfold anchorBase
      rw [if_pos ((and_pieceSet_ne_zero _ _).mpr hk)]
    rw [nnueKing_from_base v KING hb (by decide), if_pos hk]
    by_cases hr : promoRejected v KING = true ∨ countRejected v KING = true
    · rw [if_pos hr, if_pos ((reject_iff v KING).mp hr)]
    · rw [if_neg hr, if_neg (fun hc => hr ((reject_iff v KING).mpr hc))]
  · have hk0 : v.pieceTypes &&& pieceSet KING = 0 := by
      by_contra hne
      exact hk ((and_pieceSet_ne_zero _ _).mp hne)
    rw [if_neg hk]
    by_cases he : v.extinctionPieceCount = 0 ∧ Nat.testBit v.extinctionPieceTypes COMMONER
    · have hb : anchorBase v = COMMONER := by
        unfold anchorBase
        rw [if_neg (by simp [hk0]), if_pos ⟨he.1, (and_pieceSet_ne_zero _ _).mpr he.2⟩]
      rw [nnueKing_from_base v COMMONER hb (by decide), if_pos he]
      by_cases hr : promoRejected v COMMONER = true ∨ countRejected v COMMONER = true
      · rw [if_pos hr, if_pos ((reject_iff v COMMONER).mp hr)]
      · rw [if_neg hr, if_neg (fun hc => hr ((reject_iff v COMMONER).mpr hc))]
    · have hb : anchorBase v = NO_PIECE_TYPE := by
        unfold anchorBase
        rw [if_neg (by simp [hk0])]
        rw [if_neg (fun hc => he ⟨hc.1, (and_pieceSet_ne_zero _ _).mp hc.2⟩)]
      rw [nnueKing_base_none v hb, if_neg he]

/-! ## The king-square index table -/

/-- Whether the anchor can occupy loop square `s` of ruleset `v`. -/
def anchorReach (v : Variant) (s : Nat) : Bool := kingReach v (nnueKingOf v) s

/-- The dense counter value of square `s`: the number of anchor-reachable
squares strictly below `s`. -/
def anchorIndexCount (v : Variant) (n : Nat) : Nat := rcount (anchorReach v) n

theorem rc_inj (r : Nat → Bool) {s1 s2 : Nat} (h1 : r s1 = true) (h2 : r s2 = true)
    (he : rcount r s1 = rcount r s2) : s1 = s2 := by
  rcases Nat.lt_trichotomy s1 s2 with h | h | h
  · have := rcount_lt r h h1
    omega
  · exact h
  · have := rcount_lt r h h2
    omega

theorem npi_ne_zero (v : Variant) (h1 : nnueKingOf v ≠ NO_PIECE_TYPE) :
    nnuePieceIndicesOf v ≠ 0 := by
  have hS : (1 : Int) ≤ (nnueSquaresOf v : Int) := by
    have h : 1 ≤ nnueSquaresOf v :=
      Nat.one_le_iff_ne_zero.mpr (Nat.mul_ne_zero (Nat.succ_ne_zero _) (Nat.succ_ne_zero _))
    exact_mod_cast h
  have hP : (0 : Int) ≤ (nnuePocketsOf v : Int) := Int.natCast_nonneg _
  have hp : (0 : Int) ≤ (popcnt64 v.pieceTypes : Int) := Int.natCast_nonneg _
  unfold nnuePieceIndicesOf nnueNonDropPieceIndicesOf
  rw [if_pos h1]
  intro heq
  have h01 : (popcnt64 v.pieceTypes : Int) = 0 ∨ 1 ≤ (popcnt64 v.pieceTypes : Int) := by omega
  rcases h01 with h0 | h0
  · rw [h0] at heq
    linarith
  · have t1 : (1 : Int) ≤ (2 * (popcnt64 v.pieceTypes : Int) - 1) * (nnueSquaresOf v : Int) := by
      nlinarith
    have t2 : (0 : Int) ≤ 2 * ((popcnt64 v.pieceTypes : Int) - 1) * (nnuePocketsOf v : Int) := by
      have ha : (0 : Int) ≤ 2 * ((popcnt64 v.pieceTypes : Int) - 1) := by linarith
      exact mul_nonneg ha hP
  
    linarith

/-- Claim C6: with a chosen anchor and a board extent that fits the table,
the king-square index table built by `conclude` is injective on the
anchor-reachable squares; the underlying counter assignment is a bijection
from those squares onto the dense zero-based range (into the range, onto
it, and injectively); and squares the anchor can never occupy receive no
entry (their table slots are left untouched). -/
theorem kingSquareIndex_bijection (v : Variant)
    (h1 : (v.conclude).nnueKing ≠ NO_PIECE_TYPE)
    (h2 : nnueSquaresOf v ≤ SQUARE_NB) :
    (∀ s1 s2, s1 < nnueSquaresOf v → anchorReach v s1 = true →
        s2 < nnueSquaresOf v → anchorReach v s2 = true →
        (v.conclude).kingSquareIndex s1 = (v.conclude).kingSquareIndex s2 → s1 = s2)
    ∧ (∀ s, s < nnueSquaresOf v → anchorReach v s = true →
        (v.conclude).kingSquareIndex s
            = (anchorIndexCount v s : Int) * nnuePieceIndicesOf v
        ∧ anchorIndexCount v s < anchorIndexCount v (nnueSquaresOf v))
    ∧ (∀ k, k < anchorIndexCount v (nnueSquaresOf v) →
        ∃ s, s < nnueSquaresOf v ∧ anchorReach v s = true ∧ anchorIndexCount v s = k)
    ∧ (∀ s1 s2, s1 < nnueSquaresOf v → anchorReach v s1 = true →
        s2 < nnueSquaresOf v → anchorReach v s2 = true →
        anchorIndexCount v s1 = anchorIndexCount v s2 → s1 = s2)
    ∧ (∀ s, ¬(s < nnueSquaresOf v ∧ anchorReach v s = true) →
        (v.conclude).kingSquareIndex s = v.kingSquareIndex s) := by
  have hcond : nnueKingOf (doubleStepStep v) ≠ NO_PIECE_TYPE
      ∧ nnueSquaresOf (doubleStepStep v) ≤ SQUARE_NB := ⟨h1, h2⟩
  have hw : kingSquareWrites (doubleStepStep v)
      = (kingLoopGo (anchorReach v) (nnuePieceIndicesOf v) (nnueSquaresOf v)).1 := by
    simp only [kingSquareWrites]
    rw [if_pos hcond]
    rfl
  have htab : ∀ s, (v.conclude).kingSquareIndex s
      = (lookupLast (kingLoopGo (anchorReach v) (nnuePieceIndicesOf v)
            (nnueSquaresOf v)).1 s).getD (v.kingSquareIndex s) := by
    intro s
    show applyWrites (doubleStepStep v).kingSquareIndex
        (kingSquareWrites (doubleStepStep v)) s = _
    rw [hw, applyWrites_apply]
    rfl
  have hval : ∀ s, s < nnueSquaresOf v → anchorReach v s = true →
      (v.conclude).kingSquareIndex s
        = (anchorIndexCount v s : Int) * nnuePieceIndicesOf v := by
    intro s hs hr
    rw [htab s, kingLoopGo_lookup_some (anchorReach v) (nnuePieceIndicesOf v) hs hr]
    rfl
  have hnpi : nnuePieceIndicesOf v ≠ 0 := npi_ne_zero v h1
  refine ⟨?_, ?_, ?_, ?_, ?_⟩
  · intro s1 s2 hs1 hr1 hs2 hr2 he
    rw [hval s1 hs1 hr1, hval s2 hs2 hr2] at he
    have hc : (anchorIndexCount v s1 : Int) = (anchorIndexCount v s2 : Int) :=
      mul_right_cancel₀ hnpi he
    exact rc_inj (anchorReach v) hr1 hr2 (by exact_mod_cast hc)
  · intro s hs hr
    exact ⟨hval s hs hr, rcount_lt (anchorReach v) hs hr⟩
  · intro k hk
    exact kingLoopGo_surj (anchorReach v) (nnuePieceIndicesOf v) (nnueSquaresOf v) k hk
  · intro s1 s2 hs1 hr1 hs2 hr2 he
    exact rc_inj (anchorReach v) hr1 hr2 he
  · intro s hs
    rw [htab s, kingLoopGo_lookup_none (anchorReach v) (nnuePieceIndicesOf v) hs]
    rfl

/-- Claim C6 witness: on a concrete ruleset with a king anchor and an 8x8
board, the table entry of square 0 is its dense counter times the
per-king feature count. -/
theorem kingSquareIndex_bijection_witness :
    (wBase.conclude).nnueKing ≠ NO_PIECE_TYPE
    ∧ (wBase.conclude).kingSquareIndex 0
        = (anchorIndexCount wBase 0 : Int) * nnuePieceIndicesOf wBase := by
  have h := kingSquareIndex_bijection wBase (by decide) (by decide)
  exact ⟨by decide, ((h.2.1) 0 (by decide) (by decide)).1⟩

/-! ## Strict-mode rollback and silent out-of-bounds discard -/

theorem mfind_eq_none_iff {α : Type} (l : List (Str × α)) (k : Str) :
    mfind l k = none ↔ k ∉ l.map Prod.fst := by
  induction l with
  | nil => simp [mfind]
  | cons p r ih =>
      unfold mfind
      by_cases hp : p.1 = k
      · rw [if_pos hp]
        constructor
        · intro h
          cases h
        · intro h
          refine absurd ?_ h
          rw [List.map_cons]
          exact List.mem_cons.mpr (Or.inl hp.symm)
      · rw [if_neg hp, ih, List.map_cons]
        constructor
        · intro h hmem
          rcases List.mem_cons.mp hmem with h1 | h1
          · exact hp h1.symm
          · exact h h1
        · intro h hmem
          exact h (List.mem_cons_of_mem _ hmem)

/-- Invariant maintained over a whole parsing pass: the registry is the
initial registry followed by exactly the entries the pass added, the added
names are fresh with respect to the initial registry and mutually
distinct, and (in checking mode) `varsToErase` records exactly the added
names. -/
def PassInv (reg0 : Registry) (doCheck : Bool) (st : ParseState) : Prop :=
  st.registry = reg0 ++ st.added
  ∧ (∀ p ∈ st.added, mfind reg0 p.1 = none)
  ∧ (st.added.map Prod.fst).Nodup
  ∧ st.varsToErase = (if doCheck then st.added.map Prod.fst else [])

theorem processSection_inv (f : Config → Option Variant → Variant) (doCheck : Bool)
    (reg0 : Registry) (st : ParseState) (sec : RawSection)
    (h : PassInv reg0 doCheck st) :
    PassInv reg0 doCheck (processSection f doCheck st sec) := by
  obtain ⟨hr, hf, hn, hv⟩ := h
  unfold processSection
  by_cases hcol : (mfind st.registry (splitHeader sec.header).1).isSome
  · simp only [hcol, if_true]
    exact ⟨hr, hf, hn, hv⟩
  · simp only [hcol, Bool.false_eq_true, if_false]
    by_cases htmp : (splitHeader sec.header).2 ≠ []
        ∧ (mfind st.registry (splitHeader sec.header).2).isNone
    · rw [if_pos htmp]
      exact ⟨hr, hf, hn, hv⟩
    · rw [if_neg htmp]
      have hnone : mfind st.registry (splitHeader sec.header).1 = none := by
        cases hm : mfind st.registry (splitHeader sec.header).1
        · rfl
        · rw [hm] at hcol
          simp at hcol
      rw [hr, mfind_eq_none_iff] at hnone
      simp only [List.map_append, List.mem_append] at hnone
      push_neg at hnone
      by_cases hbd : (sectionVariant f st sec).maxFile ≤ FILE_MAX
          ∧ (sectionVariant f st sec).maxRank ≤ RANK_MAX
      · rw [if_pos hbd]
        have hfr : mfind st.registry (splitHeader sec.header).1 = none := by
          rw [hr, mfind_eq_none_iff]
          simp only [List.map_append, List.mem_append]
          push_neg
          exact hnone
        refine ⟨?_, ?_, ?_, ?_⟩
        · show VariantMap.add st.registry (splitHeader sec.header).1 (sectionVariant f st sec)
            = reg0 ++ (st.added ++ [((splitHeader sec.header).1, (sectionVariant f st sec).conclude)])
          unfold VariantMap.add minsert
          rw [hfr]
          simp only [Option.isSome_none, Bool.false_eq_true, if_false]
          rw [hr, List.append_assoc]
        · intro p hp
          rcases List.mem_append.mp hp with h1 | h1
          · exact hf p h1
          · have : p = ((splitHeader sec.header).1, (sectionVariant f st sec).conclude) :=
              List.mem_singleton.mp h1
            rw [this]
            rw [mfind_eq_none_iff]
            exact hnone.1
        · simp only [List.map_append, List.map_cons, List.map_nil]
          rw [List.nodup_append]
          refine ⟨hn, List.nodup_singleton _, ?_⟩
          intro a ha hb
          have : a = (splitHeader sec.header).1 := by simpa using hb
          rw [this] at ha
          exact hnone.2 ha
        · cases doCheck
          · simpa using hv
          · simp only [if_true]
            rw [hv]
            simp
      · rw [if_neg hbd]
        exact ⟨hr, hf, hn, hv⟩

theorem foldl_inv (f : Config → Option Variant → Variant) (doCheck : Bool)
    (reg0 : Registry) (secs : List RawSection) (st : ParseState)
    (h : PassInv reg0 doCheck st) :
    PassInv reg0 doCheck (secs.foldl (processSection f doCheck) st) := by
  induction secs generalizing st with
  | nil => exact h
  | cons sec rest ih => exact ih _ (processSection_inv f doCheck reg0 st sec h)

theorem cleanupGo_spec (added : List (Str × Variant)) (reg0 : Registry) (fr : List Variant)
    (hfresh : ∀ p ∈ added, mfind reg0 p.1 = none) :
    cleanupGo (reg0 ++ added) fr (added.map Prod.fst)
      = (reg0, fr ++ added.map Prod.snd) := by
  induction added generalizing fr with
  | nil => simp [cleanupGo]
  | cons p rest ih =>
      have hp : mfind reg0 p.1 = none := hfresh p (List.mem_cons_self p rest)
      have h1 : mfind (reg0 ++ p :: rest) p.1 = some p.2 := by
        rw [mfind_append_none _ hp]
        simp [mfind]
      have h2 : mErase (reg0 ++ p :: rest) p.1 = reg0 ++ rest := by
        rw [mErase_append_left _ hp]
        simp [mErase]
      show cleanupGo (mErase (reg0 ++ p :: rest) p.1)
          (fr ++ (mfind (reg0 ++ p :: rest) p.1).toList) (rest.map Prod.fst)
        = (reg0, fr ++ (p :: rest).map Prod.snd)
      rw [h1, h2]
      simp only [Option.toList_some]
      rw [ih (fr ++ [p.2]) (fun q hq => hfresh q (List.mem_cons_of_mem _ hq))]
      simp

/-- Claim C2: after a strict-mode (checking) parse of the whole stream,
every ruleset the pass itself registered has been deleted and removed, so
the registry equals exactly the registry from before the pass; a
normal-mode parse of the identical stream leaves every successfully parsed
ruleset permanently registered.  This holds for any attribute
applier/template parser `f`. -/
theorem parse_modes (f : Config → Option Variant → Variant)
    (secs : List RawSection) (reg0 : Registry) :
    (parseStream f true secs reg0).registry = reg0
    ∧ (∀ p ∈ (parseStream f true secs reg0).added,
        p.2 ∈ (parseStream f true secs reg0).freed)
    ∧ (∀ p ∈ (parseStream f false secs reg0).added,
        mfind (parseStream f false secs reg0).registry p.1 = some p.2) := by
  have hinv0 : ∀ dc : Bool, PassInv reg0 dc ⟨reg0, [], [], [], []⟩ := by
    intro dc
    refine ⟨by simp, by simp, by simp, by cases dc <;> simp⟩
  have hstrict := foldl_inv f true reg0 secs _ (hinv0 true)
  have hnormal := foldl_inv f false reg0 secs _ (hinv0 false)
  obtain ⟨hr1, hf1, hn1, hv1⟩ := hstrict
  obtain ⟨hr2, hf2, hn2, hv2⟩ := hnormal
  set stS := secs.foldl (processSection f true) ⟨reg0, [], [], [], []⟩ with hstS
  set stN := secs.foldl (processSection f false) ⟨reg0, [], [], [], []⟩ with hstN
  have hclean : cleanupGo stS.registry stS.freed stS.varsToErase
      = (reg0, stS.freed ++ stS.added.map Prod.snd) := by
    rw [hr1, hv1]
    simp only [if_true]
    exact cleanupGo_spec stS.added reg0 stS.freed hf1
  have hps : parseStream f true secs reg0
      = { stS with registry := reg0, freed := stS.freed ++ stS.added.map Prod.snd } := by
    unfold parseStream cleanupPass
    rw [← hstS]
    simp only [if_true]
    rw [hclean]
  have hpn : parseStream f false secs reg0 = stN := by
    unfold parseStream cleanupPass
    rw [← hstN]
    simp
  refine ⟨?_, ?_, ?_⟩
  · rw [hps]
  · intro p hp
    rw [hps] at hp ⊢
    have : p ∈ stS.added := hp
    exact List.mem_append.mpr (Or.inr (List.mem_map.mpr ⟨p, this, rfl⟩))
  · intro p hp
    rw [hpn] at hp ⊢
    have hpm : p ∈ stN.added := hp
    rw [hr2, mfind_append_none _ (hf2 p hpm)]
    exact mfind_of_nodup hn2 (by rw [← Prod.mk.eta (p := p)] at hpm; exact hpm)

/-- Claim C2 witness: a one-section stream, parsed strictly from an empty
registry, leaves the registry empty, and the same stream parsed normally
keeps the section registered. -/
theorem parse_modes_witness :
    (parseStream (fun _ _ => wBase) true [⟨['x'], []⟩] []).registry = []
    ∧ mfind (parseStream (fun _ _ => wBase) false [⟨['x'], []⟩] []).registry ['x']
        = some wBase.conclude := by
  have h := parse_modes (fun _ _ => wBase) [⟨['x'], []⟩] []
  refine ⟨h.1, ?_⟩
  have hadd : (parseStream (fun _ _ => wBase) false [⟨['x'], []⟩] []).added
      = [(['x'], wBase.conclude)] := rfl
  have := h.2.2 (['x'], wBase.conclude) (by rw [hadd]; exact List.mem_singleton.mpr rfl)
  exact this

/-- Claim C9: for a section that reaches ruleset creation (fresh name,
template present when named), in either mode: if the derived ruleset's
board extent exceeds the supported bounds it is deleted and not
registered, the registry is unchanged and no diagnostic beyond the
branch-independent section diagnostics is emitted; if the extent fits, the
ruleset is concluded and registered under the section name. -/
theorem section_bounds (f : Config → Option Variant → Variant) (doCheck : Bool)
    (st : ParseState) (sec : RawSection)
    (h1 : mfind st.registry (splitHeader sec.header).1 = none)
    (h2 : (splitHeader sec.header).2 = []
          ∨ (mfind st.registry (splitHeader sec.header).2).isSome) :
    (¬((sectionVariant f st sec).maxFile ≤ FILE_MAX
        ∧ (sectionVariant f st sec).maxRank ≤ RANK_MAX) →
      (processSection f doCheck st sec).registry = st.registry
      ∧ (processSection f doCheck st sec).freed = st.freed ++ [sectionVariant f st sec]
      ∧ (processSection f doCheck st sec).diags = st.diags ++ sectionPreDiags doCheck sec)
    ∧ (((sectionVariant f st sec).maxFile ≤ FILE_MAX
        ∧ (sectionVariant f st sec).maxRank ≤ RANK_MAX) →
      (processSection f doCheck st sec).registry
          = st.registry ++ [((splitHeader sec.header).1, (sectionVariant f st sec).conclude)]
      ∧ (processSection f doCheck st sec).freed = st.freed
      ∧ (processSection f doCheck st sec).diags = st.diags ++ sectionPreDiags doCheck sec) := by
  have hcol : ¬(mfind st.registry (splitHeader sec.header).1).isSome = true := by
    rw [h1]
    simp
  have htmp : ¬((splitHeader sec.header).2 ≠ []
      ∧ (mfind st.registry (splitHeader sec.header).2).isNone) := by
    rcases h2 with h | h
    · intro hc
      exact hc.1 h
    · intro hc
      rw [Option.isNone_iff_eq_none] at hc
      rw [hc.2] at h
      cases h
  constructor
  · intro hoob
    unfold processSection
    rw [if_neg hcol, if_neg htmp, if_neg hoob]
    refine ⟨rfl, rfl, ?_⟩
    show st.diags ++ collectDiags doCheck sec.lines
        ++ (if doCheck then [Diag.parsingVariant (splitHeader sec.header).1] else [])
      = st.diags ++ sectionPreDiags doCheck sec
    unfold sectionPreDiags
    rw [List.append_assoc]
  · intro hok
    unfold processSection
    rw [if_neg hcol, if_neg htmp, if_pos hok]
    refine ⟨?_, rfl, ?_⟩
    · show VariantMap.add st.registry (splitHeader sec.header).1 (sectionVariant f st sec) = _
      unfold VariantMap.add minsert
      rw [h1]
      simp
    · show st.diags ++ collectDiags doCheck sec.lines
          ++ (if doCheck then [Diag.parsingVariant (splitHeader sec.header).1] else [])
        = st.diags ++ sectionPreDiags doCheck sec
      unfold sectionPreDiags
      rw [List.append_assoc]

/-- Claim C9 witness: a section whose parsed ruleset has an out-of-range
rank is freed and leaves the (empty) registry unchanged, with no
diagnostics in normal mode. -/
theorem section_bounds_witness :
    (processSection (fun _ _ => wBig) false ⟨[], [], [], [], []⟩ ⟨['x'], []⟩).registry = []
    ∧ (processSection (fun _ _ => wBig) false ⟨[], [], [], [], []⟩ ⟨['x'], []⟩).freed = [wBig]
    ∧ (processSection (fun _ _ => wBig) false ⟨[], [], [], [], []⟩ ⟨['x'], []⟩).diags = [] := by
  have h := section_bounds (fun _ _ => wBig) false ⟨[], [], [], [], []⟩ ⟨['x'], []⟩ rfl
    (Or.inl rfl)
  have hoob := h.1 (by decide)
  refine ⟨hoob.1, ?_, ?_⟩
  · rw [hoob.2.1]
    rfl
  · rw [hoob.2.2]
    rfl

/-! ## The two starting-position scans -/

/-- A ruleset whose FEN has a newline (whitespace) before the first space,
separating two anchor characters. -/
def wScan : Variant := { wBase with startFen := ['K', '\n', 'K', ' ', 'w'] }

/-- Claim C10 counterexample: the anchor-validation scan does NOT stop at
the first whitespace character — it runs to the first space.  On a FEN
with a newline before the first space, the scanned board part is
`"K\nK"` (the second `K` lies beyond the first whitespace), its `K`-count
is 2 while the prefix before the first whitespace holds only one `K`, the
anchor is therefore rejected, and the piece-count scan (which does stop at
the newline) counts only 1. -/
theorem scan_whitespace_cex :
    wScan.startFen.takeWhile (fun c => !(isspaceChar c)) = ['K']
    ∧ fenBoardOf wScan = ['K', '\n', 'K']
    ∧ (fenBoardOf wScan).count 'K' = 2
    ∧ (wScan.startFen.takeWhile (fun c => !(isspaceChar c))).count 'K' = 1
    ∧ (wScan.conclude).nnueKing = NO_PIECE_TYPE
    ∧ (wScan.conclude).nnueMaxPieces = 1 := by
  refine ⟨rfl, rfl, by decide, by decide, by decide, by decide⟩

theorem takeWhile_append_space (l1 l2 : List Char) (h : ' ' ∉ l1) :
    (l1 ++ ' ' :: l2).takeWhile (fun c => c ≠ ' ') = l1 := by
  induction l1 with
  | nil => simp [List.takeWhile_cons]
  | cons c r ih =>
      have hc : c ≠ ' ' := fun he => h (he ▸ List.mem_cons_self c r)
      have ih2 := ih (fun hm => h (List.mem_cons_of_mem _ hm))
      rw [List.cons_append, List.takeWhile_cons, if_pos (by simp [hc]), ih2]

theorem countPiecesGo_eq (pc syn : List Char) (l : List Char) :
    countPiecesGo pc syn l
      = ((l.takeWhile (fun c => !(isspaceChar c))).filter
          (fun c => pc.contains c || syn.contains c)).length := by
  induction l with
  | nil => rfl
  | cons c r ih =>
      cases hs : isspaceChar c
      · cases hf : (pc.contains c || syn.contains c)
        · have hf2 : ¬(c ∈ pc ∨ c ∈ syn) := by simpa using hf
          simp [countPiecesGo, hs, hf, hf2, ih, List.takeWhile_cons, List.filter_cons]
        · have hf2 : c ∈ pc ∨ c ∈ syn := by simpa using hf
          simp [countPiecesGo, hs, hf, hf2, ih, List.takeWhile_cons, List.filter_cons,
            Nat.add_comm]
      · simp [countPiecesGo, hs, List.takeWhile_cons]

/-- Claim C10 (amended): the anchor-validation scan examines the starting
position exactly up to the first space (not the first whitespace), while
the piece-count scan stops at the first whitespace; a bracketed pocket
segment preceding the first space is included in the anchor scan, so every
occurrence of a piece character inside the pocket is added to the
per-color count that validates the anchor, and (when no whitespace
precedes it) pocket pieces likewise contribute to the maximum piece
count. -/
theorem scan_truncation (v : Variant) (board pocket rest : List Char) (ch : Char)
    (hfen : v.startFen = board ++ '[' :: (pocket ++ ']' :: ' ' :: rest))
    (hb : ' ' ∉ board) (hp : ' ' ∉ pocket)
    (hlb : ch ≠ '[') (hrb : ch ≠ ']') :
    fenBoardOf v = v.startFen.takeWhile (fun c => c ≠ ' ')
    ∧ (v.conclude).nnueMaxPieces
        = (let m := ((v.startFen.takeWhile (fun c => !(isspaceChar c))).filter
            (fun c => v.pieceToChar.contains c || v.pieceToCharSynonyms.contains c)).length
           if v.twoBoards then m * 2 else m)
    ∧ (fenBoardOf v).count ch = board.count ch + pocket.count ch := by
  refine ⟨fenBoard_eq_takeWhile v, ?_, ?_⟩
  · show nnueMaxPiecesOf (doubleStepStep v) = _
    unfold nnueMaxPiecesOf
    rw [countPiecesGo_eq]
    rfl
  · rw [fenBoard_eq_takeWhile v, hfen]
    have hnb : ' ' ∉ board ++ '[' :: (pocket ++ [']']) := by
      intro hm
      rcases List.mem_append.mp hm with h1 | h1
      · exact hb h1
      · rcases List.mem_cons.mp h1 with h2 | h2
        · cases h2
        · rcases List.mem_append.mp h2 with h3 | h3
          · exact hp h3
          · rcases List.mem_singleton.mp h3 with h4
            cases h4
    have hsplit : board ++ '[' :: (pocket ++ ']' :: ' ' :: rest)
        = (board ++ '[' :: (pocket ++ [']'])) ++ ' ' :: rest := by
      simp
    rw [hsplit, takeWhile_append_space _ _ hnb]
    rw [List.count_append, List.count_cons, List.count_append, List.count_singleton]
    have hl : ('[' == ch) = false := by
      cases hq : ('[' == ch)
      · rfl
      · exact absurd (eq_of_beq hq).symm hlb
    have hr : (']' == ch) = false := by
      cases hq : (']' == ch)
      · rfl
      · exact absurd (eq_of_beq hq).symm hrb
    simp [hl, hr]

/-- A ruleset whose FEN has a bracketed pocket before the first space. -/
def wPock : Variant := { wBase with startFen := ['K', '[', 'Q', ']', ' ', 'w'] }

/-- Claim C10 witness: on a FEN `K[Q] w`, the anchor scan's board part
runs to the first space, and the `Q` held in the pocket is counted. -/
theorem scan_truncation_witness :
    fenBoardOf wPock = wPock.startFen.takeWhile (fun c => c ≠ ' ')
    ∧ (fenBoardOf wPock).count 'Q'
        = (['K'] : List Char).count 'Q' + (['Q'] : List Char).count 'Q' := by
  have h := scan_truncation wPock ['K'] ['Q'] ['w'] 'Q' rfl (by decide) (by decide)
    (by decide) (by decide)
  exact ⟨h.1, h.2.2⟩
